import Mathlib

/-!
Verification of the taxonomy-tree core of the Phylogenetic_Tree repository.

The repository has two Python scripts whose shared computational core is:
normalizing flat rank records, deduplicating them, folding them into a
nested-dictionary tree, and serializing that tree to a Mermaid node/edge
text and to a Newick nested parenthetical text.

This file gives a shallow embedding of that core, translated from the
source files update_tree.py and update_tree_svg_block_replace.py:
  - a Record is the per-row dictionary built by extract_row_properties,
    modelled as an association list from lowercased rank keys to optional
    string values (a missing key and a stored None both read back as none,
    exactly as dict.get returns None in either case);
  - Tree is the nested string-keyed dictionary built by build_tree, with
    children kept in insertion order as Python dicts do;
  - deduplicate_rows, build_tree, safe_id (with a full SHA-1 model),
    esc_label, nested_to_newick, build_newick and the Mermaid walk are
    translated function by function;
  - recursion through the nested dictionaries is driven by an explicit
    fuel argument so that every definition is structurally recursive and
    kernel-reducible; the fuel-stability theorems at the end of the file
    prove that the fuel the top-level entry points pass never truncates
    the traversal of a built tree, so the fuel is an inert bound.

Strings are manipulated through their underlying character lists, which
matches Python string semantics (code-point sequences).  The Unicode
classification functions of Python (str.lower, str.isalnum, the regex
whitespace class) are modelled by the ASCII classifiers of Lean Char; the
two agree on all ASCII data, which is the domain exercised here.
-/

set_option maxRecDepth 40000

namespace PhyloTree

/-! ## Strings as character lists: Python-style helpers -/

/-- Code-point lexicographic comparison of character lists, the order that
Python uses to compare strings. -/
def lexLe : List Char → List Char → Bool
  | [], _ => true
  | _ :: _, [] => false
  | a :: as, b :: bs =>
    if a.toNat < b.toNat then true
    else if b.toNat < a.toNat then false
    else lexLe as bs

/-- Lowercasing of a string character by character, modelling str.lower
(restricted to ASCII, where Lean Char.toLower and Python agree). -/
def lowerStr (s : String) : String := ⟨s.data.map Char.toLower⟩

/-- The sort key Python computes in sorted(items, key=lambda x: x[0].lower()). -/
def keyLe (a b : String) : Bool := lexLe (lowerStr a).data (lowerStr b).data

/-! ## Records

extract_row_properties produces a dict mapping each lowercased rank name to
either a normalized string or None.  A Record is that dict as an association
list; rget models dict.get, returning none both for a missing key and for a
stored None. -/

/-- A row dictionary: lowercased rank name to optional value. -/
def Record : Type := List (String × Option String)

instance : DecidableEq Record := by unfold Record; infer_instance

/-- Model of r.get(key) on a row dictionary. -/
def rget (r : Record) (k : String) : Option String :=
  match r.find? (fun p => p.1 == k) with
  | some p => p.2
  | none => none

/-- The configured rank schema, the constant RANK_KEYS of both scripts. -/
def RANK_KEYS : List String :=
  ["Kingdom", "Phylum", "Class", "Order", "Family", "Genus", "Species"]

/-! ## Deduplication

deduplicate_rows walks the rows keeping a seen set of per-rank value tuples;
the key coalesces a falsy value (None or the empty string) to the empty
string via the expression r.get(k.lower()) or "". -/

/-- The tuple key of one row: for each rank, the value with None coalesced
to the empty string, exactly as r.get(k.lower()) or "" computes it. -/
def rowKey (ranks : List String) (r : Record) : List String :=
  ranks.map (fun k => (rget r (lowerStr k)).getD "")

/-- The loop of deduplicate_rows, with the seen set made explicit. -/
def dedupGo (ranks : List String) (seen : List (List String)) :
    List Record → List Record
  | [] => []
  | r :: rs =>
    let key := rowKey ranks r
    if key ∈ seen then dedupGo ranks seen rs
    else r :: dedupGo ranks (key :: seen) rs

/-- deduplicate_rows from both scripts (identical in the two files). -/
def deduplicate_rows (ranks : List String) (rows : List Record) : List Record :=
  dedupGo ranks [] rows

/-! ## The nested-dictionary tree -/

/-- The tree built by build_tree: a nested Python dict, i.e. an
insertion-ordered association list of name to subtree. -/
inductive Tree : Type where
  | node (children : List (String × Tree)) : Tree

/-- The children association list of a tree node. -/
def Tree.children : Tree → List (String × Tree)
  | .node cs => cs

/-- Update the first entry of an association list whose key is v. -/
def updateFirst (v : String) (f : Tree → Tree) :
    List (String × Tree) → List (String × Tree)
  | [] => []
  | (k, c) :: rest =>
    if k == v then (k, f c) :: rest
    else (k, c) :: updateFirst v f rest

/-- One step of build_tree at one dictionary level: if v not in node then
node[v] = {} (a fresh entry appended at the end, as dict insertion does),
then the continuation runs on node[v]. -/
def updateChild (t : Tree) (v : String) (f : Tree → Tree) : Tree :=
  match t with
  | .node cs =>
    if cs.any (fun p => p.1 == v) then .node (updateFirst v f cs)
    else .node (cs ++ [(v, f (.node []))])

/-- Python dict lookup among the children. -/
def lookupChild (t : Tree) (v : String) : Option Tree :=
  match t.children.find? (fun p => p.1 == v) with
  | some p => some p.2
  | none => none

/-- The inner loop of build_tree for one record: walk the rank schema,
read v = r.get(rank.lower()); if not v then break (this stops the whole
record, it does not skip the rank), else descend into node[v]. -/
def insertRecord (ranks : List String) (r : Record) (t : Tree) : Tree :=
  match ranks with
  | [] => t
  | k :: ks =>
    match rget r (lowerStr k) with
    | none => t
    | some v =>
      if v == "" then t
      else updateChild t v (insertRecord ks r)

/-- build_tree from both scripts: fold every row into an initially empty
nested dictionary. -/
def build_tree (ranks : List String) (rows : List Record) : Tree :=
  rows.foldl (fun t r => insertRecord ranks r t) (.node [])

/-! ## Observers used to state properties of the built tree -/

/-- Whether a chain of names is present as a nested path from the root. -/
def hasPath : Tree → List String → Bool
  | _, [] => true
  | t, v :: vs =>
    match lookupChild t v with
    | some c => hasPath c vs
    | none => false

/-- The names of the direct children of a node. -/
def childNames (t : Tree) : List String := t.children.map Prod.fst

/-- How many direct children of t carry the given name. -/
def childCount (t : Tree) (v : String) : Nat :=
  (t.children.filter (fun p => p.1 == v)).length

/-- The names of the children of t that own a child named v: the list of
parents of v one level down.  Used to observe under how many distinct
parents a name was attached. -/
def parentsOf (t : Tree) (v : String) : List String :=
  (t.children.filter (fun p => (childNames p.2).contains v)).map Prod.fst

/-- The prefix of the rank values of a record that build_tree actually
consumes: the values of consecutive ranks from the front of the schema up
to but not including the first absent or empty one. -/
def presentChain (ranks : List String) (r : Record) : List String :=
  match ranks with
  | [] => []
  | k :: ks =>
    match rget r (lowerStr k) with
    | none => []
    | some v => if v == "" then [] else v :: presentChain ks r

/-- Insertion of a plain chain of names into the nested dictionary. -/
def insertChain (t : Tree) : List String → Tree
  | [] => t
  | v :: vs => updateChild t v (fun c => insertChain c vs)

/-! ## SHA-1 and safe_id

safe_id hashes the UTF-8 bytes of its argument with SHA-1 and keeps the
first ten hex digits, prepending a sanitized twenty-character fragment.
The hash is modelled in full so that identifiers evaluate concretely. -/

/-- Arithmetic truncation to a 32-bit word. -/
def w32 (n : Nat) : Nat := n % 4294967296

/-- 32-bit left rotation. -/
def rotl (k x : Nat) : Nat := w32 ((x <<< k) + (x >>> (32 - k)))

/-- UTF-8 encoding of one character (standard four-case scheme). -/
def utf8Char (c : Char) : List Nat :=
  let n := c.toNat
  if n < 128 then [n]
  else if n < 2048 then [192 + n / 64, 128 + n % 64]
  else if n < 65536 then
    [224 + n / 4096, 128 + n / 64 % 64, 128 + n % 64]
  else
    [240 + n / 262144, 128 + n / 4096 % 64, 128 + n / 64 % 64, 128 + n % 64]

/-- UTF-8 bytes of a string, as name.encode("utf8") produces them. -/
def utf8Bytes (s : String) : List Nat :=
  s.data.foldr (fun c acc => utf8Char c ++ acc) []

/-- Big-endian eight-byte encoding of a number (the SHA-1 length field). -/
def be64 (n : Nat) : List Nat :=
  [n >>> 56 % 256, n >>> 48 % 256, n >>> 40 % 256, n >>> 32 % 256,
   n >>> 24 % 256, n >>> 16 % 256, n >>> 8 % 256, n % 256]

/-- SHA-1 padding: append 0x80, zero bytes to 56 mod 64, then the bit
length, big endian. -/
def sha1pad (msg : List Nat) : List Nat :=
  msg ++ [128] ++ List.replicate ((119 - msg.length % 64) % 64) 0
      ++ be64 (msg.length * 8)

/-- Split a byte list into 64-byte blocks (the input length is always a
multiple of 64 after padding; fuel counts the blocks). -/
def blocks64 (fuel : Nat) (l : List Nat) : List (List Nat) :=
  match fuel, l with
  | _, [] => []
  | 0, _ => []
  | f + 1, l => l.take 64 :: blocks64 f (l.drop 64)

/-- Pack four bytes into one big-endian 32-bit word. -/
def word32At (b : List Nat) (i : Nat) : Nat :=
  (b.getD (4 * i) 0) * 16777216 + (b.getD (4 * i + 1) 0) * 65536 +
  (b.getD (4 * i + 2) 0) * 256 + b.getD (4 * i + 3) 0

/-- The sixteen message words of one block. -/
def blockWords (b : List Nat) : List Nat :=
  (List.range 16).map (word32At b)

/-- Message-schedule extension step: append w[i-3] xor w[i-8] xor w[i-14]
xor w[i-16], rotated left by one, until eighty words exist. -/
def extendWords (ws : List Nat) : Nat → List Nat
  | 0 => ws
  | f + 1 =>
    let n := ws.length
    let x := ((ws.getD (n - 3) 0) ^^^ (ws.getD (n - 8) 0) ^^^
              (ws.getD (n - 14) 0) ^^^ (ws.getD (n - 16) 0))
    extendWords (ws ++ [rotl 1 x]) f

/-- The round function and constant of SHA-1 round i. -/
def sha1fk (i b c d : Nat) : Nat × Nat :=
  if i < 20 then ((b &&& c) ||| ((b ^^^ 4294967295) &&& d), 1518500249)
  else if i < 40 then (b ^^^ c ^^^ d, 1859775393)
  else if i < 60 then ((b &&& c) ||| (b &&& d) ||| (c &&& d), 2400959708)
  else (b ^^^ c ^^^ d, 3395469782)

/-- One SHA-1 round on the five-word state. -/
def sha1round (st : Nat × Nat × Nat × Nat × Nat) (iw : Nat × Nat) :
    Nat × Nat × Nat × Nat × Nat :=
  let (a, b, c, d, e) := st
  let (i, wi) := iw
  let (f, k) := sha1fk i b c d
  let temp := w32 (rotl 5 a + f + e + k + wi)
  (temp, a, rotl 30 b, c, d)

/-- Compress one 64-byte block into the running five-word digest. -/
def sha1block (h : Nat × Nat × Nat × Nat × Nat) (b : List Nat) :
    Nat × Nat × Nat × Nat × Nat :=
  let ws := extendWords (blockWords b) 64
  let (a, bb, c, d, e) := ((List.range 80).zip ws).foldl sha1round h
  let (h0, h1, h2, h3, h4) := h
  (w32 (h0 + a), w32 (h1 + bb), w32 (h2 + c), w32 (h3 + d), w32 (h4 + e))

/-- Hex digit characters, lowercase as hexdigest uses. -/
def hexDigitChar (n : Nat) : Char :=
  match n with
  | 0 => '0' | 1 => '1' | 2 => '2' | 3 => '3'
  | 4 => '4' | 5 => '5' | 6 => '6' | 7 => '7'
  | 8 => '8' | 9 => '9' | 10 => 'a' | 11 => 'b'
  | 12 => 'c' | 13 => 'd' | 14 => 'e' | _ => 'f'

/-- Eight lowercase hex digits of one 32-bit word, most significant first. -/
def hex8 (n : Nat) : List Char :=
  [hexDigitChar (n >>> 28 % 16), hexDigitChar (n >>> 24 % 16),
   hexDigitChar (n >>> 20 % 16), hexDigitChar (n >>> 16 % 16),
   hexDigitChar (n >>> 12 % 16), hexDigitChar (n >>> 8 % 16),
   hexDigitChar (n >>> 4 % 16), hexDigitChar (n % 16)]

/-- hashlib.sha1(name.encode("utf8")).hexdigest() as a character list. -/
def sha1hexChars (s : String) : List Char :=
  let padded := sha1pad (utf8Bytes s)
  let bs := blocks64 (padded.length / 64) padded
  let (h0, h1, h2, h3, h4) :=
    bs.foldl sha1block (1732584193, 4023233417, 2562383102, 271733878, 3285377520)
  hex8 h0 ++ hex8 h1 ++ hex8 h2 ++ hex8 h3 ++ hex8 h4

/-- safe_id from update_tree.py: an n_ prefix, the first twenty characters
of the name with every non-alphanumeric character replaced by an
underscore, and the first ten hex digits of the SHA-1 of the name.
Char.isAlphanum models str.isalnum on the ASCII range. -/
def safe_id (name : String) : String :=
  let cleaned := name.data.map (fun c => if c.isAlphanum then c else '_')
  ⟨('n' :: '_' :: cleaned.take 20) ++ ('_' :: (sha1hexChars name).take 10)⟩

/-- The identifier the Mermaid renderer derives for a (rank, name) pair:
safe_id applied to the string rank::name, as in the calls
safe_id(f"{rank}::{name}"). -/
def identify (rank name : String) : String :=
  safe_id (rank ++ "::" ++ name)

/-! ## Sibling ordering

Both serializers iterate sorted(subtree.items(), key=lambda x: x[0].lower()).
Python sorted is a stable ascending sort; it is modelled by a stable
insertion sort on the association list, keyed by the lowercased name. -/

/-- Stable insertion of one entry in front of the first entry whose key is
not smaller. -/
def insertByKey (x : String × Tree) : List (String × Tree) → List (String × Tree)
  | [] => [x]
  | y :: ys => if keyLe x.1 y.1 then x :: y :: ys else y :: insertByKey x ys

/-- The sorted sibling list both serializers traverse. -/
def sortSiblings : List (String × Tree) → List (String × Tree)
  | [] => []
  | x :: xs => insertByKey x (sortSiblings xs)

/-! ## The Newick serializer (update_tree_svg_block_replace.py) -/

/-- The character class of the regular expression in esc_label: comma,
parentheses, colon, semicolon, the whitespace class, single quote, double
quote. -/
def needsQuoteChar (c : Char) : Bool :=
  c == ',' || c == '(' || c == ')' || c == ':' || c == ';' ||
  c == ' ' || c == '\t' || c == '\n' || c == '\r' ||
  c == '\x0b' || c == '\x0c' || c == '\'' || c == '\"'

/-- Doubling of single quotes, s.replace("\x27", "\x27\x27"). -/
def doubleQuotes (s : String) : String :=
  ⟨s.data.foldr (fun c acc => if c == '\'' then '\'' :: '\'' :: acc else c :: acc) []⟩

/-- esc_label: wrap in single quotes, doubling inner single quotes, if any
character of the label is in the regular expression class. -/
def esc_label (s : String) : String :=
  if s.data.any needsQuoteChar then "\x27" ++ doubleQuotes s ++ "\x27" else s

/-- Leaf-name convention of the Newick output: spaces become underscores. -/
def underscoreSpaces (s : String) : String :=
  ⟨s.data.map (fun c => if c == ' ' then '_' else c)⟩

/-- The label of an internal node at a rank index: rank:name when the index
is inside the schema, the bare name beyond it or when the rank name is the
empty string (falsy in the source condition). -/
def newickLabel (ranks : List String) (ri : Nat) (name : String) : String :=
  match ranks[ri]? with
  | some rk => if rk == "" then name else rk ++ ":" ++ name
  | none => name

/-- nested_to_newick, defused into an explicitly fuelled recursion over the
already-sorted sibling list of one level; fuel decreases both along the
list and on descent, so the definition is structural and kernel-reducible.
Returns the comma-joined parts of one level. -/
def nested_to_newick (fuel : Nat) (items : List (String × Tree)) (ri : Nat)
    (ranks : List String) : List String :=
  match fuel, items with
  | 0, _ => []
  | _ + 1, [] => []
  | f + 1, (name, child) :: rest =>
    let part :=
      if child.children.isEmpty then esc_label (underscoreSpaces name)
      else "(" ++ String.intercalate ","
             (nested_to_newick f (sortSiblings child.children) (ri + 1) ranks)
           ++ ")" ++ esc_label (newickLabel ranks ri name)
    part :: nested_to_newick f rest ri ranks

/-- build_newick: the single parenthesized expression with a semicolon.
The fuel argument only bounds the recursion of the embedding; the
fuel-stability lemma below shows any large enough value gives the same
text, and the top-level entry point passes such a value. -/
def build_newick (fuel : Nat) (t : Tree) : String :=
  "(" ++ String.intercalate ","
    (nested_to_newick fuel (sortSiblings t.children) 0 RANK_KEYS) ++ ");"

/-- A recursion bound that always suffices for a tree built from the given
rows: the built tree has at most one node per present rank value of each
row, and the walk consumes one fuel unit per node visited plus one per
level of descent. -/
def rowsFuel (rows : List Record) : Nat :=
  2 * rows.length * RANK_KEYS.length + 2

/-- The Newick text of the whole pipeline, build_newick(build_tree(rows)). -/
def render_newick (rows : List Record) : String :=
  build_newick (rowsFuel rows) (build_tree RANK_KEYS rows)

/-! ## The Mermaid serializer (update_tree.py)

The walk appends node-definition lines and edge lines into one list while
keeping a created_nodes set of already-defined identifiers.  Lines are
modelled structurally, with a rendering function giving the exact text;
the class assignments and the click lines the script appends after the
walk depend on external Wikipedia and Notion lookups and are outside the
modelled core. -/

/-- One output line of the walk: a raw header line, a node-definition line,
or an edge line; label is stored before quote escaping. -/
inductive MLine : Type where
  | raw (s : String) : MLine
  | defn (id label : String) : MLine
  | edge (src dst : String) : MLine
deriving DecidableEq

/-- The exact text of one line, with the double-quote escaping
label.replace("\x22", "\x5c\x22") applied to definition labels. -/
def mline_str : MLine → String
  | .raw s => s
  | .defn i l =>
    i ++ "[\"" ++ ⟨l.data.foldr (fun c acc => if c == '\"' then '\\' :: '\"' :: acc else c :: acc) []⟩ ++ "\"]"
  | .edge a b => a ++ " --> " ++ b

/-- The walk state: the line list and the created_nodes set. -/
structure WalkSt : Type where
  lines : List MLine
  created : List String
deriving DecidableEq

/-- The rank at an index, RANK_KEYS[rank_index] if rank_index < len else None. -/
def rankAt (ranks : List String) (ri : Nat) : Option String := ranks[ri]?

/-- Whether the optional rank is the species rank, rank and rank.lower() ==
"species". -/
def isSpeciesRank (rk : Option String) : Bool :=
  match rk with
  | some r => lowerStr r == "species"
  | none => false

/-- The node name the walk uses: for the species rank with a parent, the
binomial parent-name space name; otherwise the bare name. -/
def nodeNameFor (rk : Option String) (parent : Option String) (name : String) : String :=
  if isSpeciesRank rk then
    match parent with
    | some p => p ++ " " ++ name
    | none => name
  else name

/-- The label of a definition line: Rank: name for non-species ranks, the
bare node name for the species rank, beyond the schema, and for an empty
rank name (falsy in the source condition). -/
def labelFor (rk : Option String) (nodeName : String) : String :=
  match rk with
  | some r =>
    if r == "" then nodeName
    else if lowerStr r == "species" then nodeName else r ++ ": " ++ nodeName
  | none => nodeName

/-- The node identifier, safe_id(f"{rank or <empty>}::{node_name}"). -/
def nidFor (rk : Option String) (nodeName : String) : String :=
  safe_id (rk.getD "" ++ "::" ++ nodeName)

/-- The parent identifier used in an edge line,
safe_id(f"{RANK_KEYS[rank_index-1] if rank_index>0 else <empty>}::{parent_name}").
A rank index beyond the schema yields the empty rank fragment; the Python
code would only reach that case on a tree deeper than the schema, which
build_tree never produces. -/
def parentIdFor (ranks : List String) (ri : Nat) (p : String) : String :=
  safe_id ((if ri > 0 then (ranks[ri - 1]?).getD "" else "") ++ "::" ++ p)

/-- The definition half of the walk body for one sibling entry: if the
identifier is not yet in created_nodes, append the node-definition line and
register the identifier. -/
def defStep (rk : Option String) (nodeName : String) (st : WalkSt) : WalkSt :=
  let nid := nidFor rk nodeName
  if nid ∈ st.created then st
  else { lines := st.lines ++ [.defn nid (labelFor rk nodeName)],
         created := st.created ++ [nid] }

/-- The edge half of the walk body: when a parent name is present, append
the edge line from the parent identifier to this node identifier. -/
def edgeStep (ranks : List String) (ri : Nat) (parent : Option String)
    (nid : String) (st : WalkSt) : WalkSt :=
  match parent with
  | some p => { st with lines := st.lines ++ [.edge (parentIdFor ranks ri p) nid] }
  | none => st

/-- The recursive walk over the sorted sibling list; fuel decreases both
along the list and on descent so the recursion is structural.  The items
argument is already sorted, and each descent sorts the children of the
child being entered, exactly as the source walk sorts at every level. -/
def walkF (fuel : Nat) (items : List (String × Tree)) (ri : Nat)
    (ranks : List String) (parent : Option String) (st : WalkSt) : WalkSt :=
  match fuel, items with
  | 0, _ => st
  | _ + 1, [] => st
  | f + 1, (name, child) :: rest =>
    let rk := rankAt ranks ri
    let nodeName := nodeNameFor rk parent name
    let st2 := edgeStep ranks ri parent (nidFor rk nodeName) (defStep rk nodeName st)
    let st3 :=
      if child.children.isEmpty then st2
      else walkF f (sortSiblings child.children) (ri + 1) ranks (some nodeName) st2
    walkF f rest ri ranks parent st3

/-- render_mermaid_with_links, restricted to the timestamp header, the
graph-direction line, and the node and edge lines of the walk.  The
timestamp is datetime.utcnow().isoformat(), passed in as a parameter. -/
def render_mermaid_lines (ts dir : String) (rows : List Record) : List MLine :=
  let t := build_tree RANK_KEYS rows
  (walkF (rowsFuel rows) (sortSiblings t.children) 0 RANK_KEYS none
    { lines := [.raw ("%% Generated " ++ ts ++ "Z"), .raw ("graph " ++ dir)],
      created := [] }).lines

/-! ## Observers of the walk output -/

/-- The identifiers of the definition lines of a line list, in order. -/
def defIds (lines : List MLine) : List String :=
  lines.filterMap (fun l => match l with | .defn i _ => some i | _ => none)

/-- The source and target pairs of the edge lines of a line list, in order. -/
def edgePairs (lines : List MLine) : List (String × String) :=
  lines.filterMap (fun l => match l with | .edge a b => some (a, b) | _ => none)

/-- The identifiers the walk visits (with repetition), following the same
fuel discipline as walkF; the created set does not influence the visit
order, so this observer is state free. -/
def visitIds (fuel : Nat) (items : List (String × Tree)) (ri : Nat)
    (ranks : List String) (parent : Option String) : List String :=
  match fuel, items with
  | 0, _ => []
  | _ + 1, [] => []
  | f + 1, (name, child) :: rest =>
    let nodeName := nodeNameFor (rankAt ranks ri) parent name
    let nid := nidFor (rankAt ranks ri) nodeName
    (nid :: (if child.children.isEmpty then []
             else visitIds f (sortSiblings child.children) (ri + 1) ranks (some nodeName)))
      ++ visitIds f rest ri ranks parent

/-- The parent-to-child edges the walk emits, one per visited sibling entry
that has a parent, following the same fuel discipline as walkF. -/
def visitEdges (fuel : Nat) (items : List (String × Tree)) (ri : Nat)
    (ranks : List String) (parent : Option String) : List (String × String) :=
  match fuel, items with
  | 0, _ => []
  | _ + 1, [] => []
  | f + 1, (name, child) :: rest =>
    let nodeName := nodeNameFor (rankAt ranks ri) parent name
    let nid := nidFor (rankAt ranks ri) nodeName
    (match parent with
     | some p => [(parentIdFor ranks ri p, nid)]
     | none => []) ++
    (if child.children.isEmpty then []
     else visitEdges f (sortSiblings child.children) (ri + 1) ranks (some nodeName)) ++
    visitEdges f rest ri ranks parent

/-- Definition lines appear before any edge line that mentions their
identifier: every decomposition of the line list around an edge line finds
a definition of both endpoints strictly earlier. -/
def DefBeforeEdge (lines : List MLine) : Prop :=
  ∀ l1 a b l2, lines = l1 ++ .edge a b :: l2 → a ∈ defIds l1 ∧ b ∈ defIds l1

/-- The ascending case-insensitive order on sibling entries. -/
def KeyLeP (x y : String × Tree) : Prop := keyLe x.1 y.1 = true

/-! ## Lemmas about the comparator and the sibling sort -/

theorem lexLe_total (a b : List Char) : lexLe a b = true ∨ lexLe b a = true := by
  induction a generalizing b with
  | nil => left; rfl
  | cons x xs ih =>
    cases b with
    | nil => right; rfl
    | cons y ys =>
      by_cases h1 : x.toNat < y.toNat
      · left; simp [lexLe, h1]
      · by_cases h2 : y.toNat < x.toNat
        · right; simp [lexLe, h2]
        · rcases ih ys with h | h
          · left; simp [lexLe, h1, h2, h]
          · right; simp [lexLe, h1, h2, h]

theorem lexLe_trans {a b c : List Char} (h1 : lexLe a b = true)
    (h2 : lexLe b c = true) : lexLe a c = true := by
  induction a generalizing b c with
  | nil => rfl
  | cons x xs ih =>
    cases b with
    | nil => simp [lexLe] at h1
    | cons y ys =>
      cases c with
      | nil => simp [lexLe] at h2
      | cons z zs =>
        simp only [lexLe] at h1 h2 ⊢
        by_cases hxy : x.toNat < y.toNat
        · by_cases hyz : y.toNat < z.toNat
          · have : x.toNat < z.toNat := Nat.lt_trans hxy hyz
            simp [this]
          · by_cases hzy : z.toNat < y.toNat
            · simp [hyz, hzy] at h2
            · have hyz' : y.toNat = z.toNat := Nat.le_antisymm (Nat.le_of_not_lt hzy) (Nat.le_of_not_lt hyz)
              have : x.toNat < z.toNat := hyz' ▸ hxy
              simp [this]
        · by_cases hyx : y.toNat < x.toNat
          · simp [hxy, hyx] at h1
          · have hxy' : x.toNat = y.toNat := Nat.le_antisymm (Nat.le_of_not_lt hyx) (Nat.le_of_not_lt hxy)
            by_cases hyz : y.toNat < z.toNat
            · have : x.toNat < z.toNat := hxy' ▸ hyz
              simp [this]
            · by_cases hzy : z.toNat < y.toNat
              · simp [hyz, hzy] at h2
              · have hxz : ¬ x.toNat < z.toNat := by omega
                have hzx : ¬ z.toNat < x.toNat := by omega
                simp only [hxy, hyx, if_neg, ite_false] at h1
                simp only [hyz, hzy, if_neg, ite_false] at h2
                simp [hxz, hzx, ih h1 h2]

theorem keyLe_total (a b : String) : keyLe a b = true ∨ keyLe b a = true :=
  lexLe_total _ _

theorem keyLe_trans {a b c : String} (h1 : keyLe a b = true)
    (h2 : keyLe b c = true) : keyLe a c = true :=
  lexLe_trans h1 h2

theorem insertByKey_perm (x : String × Tree) (l : List (String × Tree)) :
    List.Perm (insertByKey x l) (x :: l) := by
  induction l with
  | nil => rfl
  | cons y ys ih =>
    by_cases h : keyLe x.1 y.1
    · simp [insertByKey, h]
    · simp only [insertByKey, h, if_false, Bool.false_eq_true]
      exact (ih.cons y).trans (List.Perm.swap x y ys)

theorem insertByKey_pairwise (x : String × Tree) {l : List (String × Tree)}
    (h : l.Pairwise KeyLeP) : (insertByKey x l).Pairwise KeyLeP := by
  induction l with
  | nil => simp [insertByKey, List.Pairwise.nil]
  | cons y ys ih =>
    rcases List.pairwise_cons.mp h with ⟨hy, hys⟩
    by_cases hk : keyLe x.1 y.1
    · simp only [insertByKey, hk, if_true]
      refine List.pairwise_cons.mpr ⟨?_, h⟩
      intro z hz
      rcases List.mem_cons.mp hz with rfl | hz
      · exact hk
      · exact keyLe_trans hk (hy _ hz)
    · simp only [insertByKey, hk, if_false, Bool.false_eq_true]
      refine List.pairwise_cons.mpr ⟨?_, ih hys⟩
      intro z hz
      have hz' : z ∈ x :: ys := (insertByKey_perm x ys).mem_iff.mp hz
      rcases List.mem_cons.mp hz' with rfl | hz2
      · rcases keyLe_total z.1 y.1 with hx | hx
        · exact absurd hx hk
        · exact hx
      · exact hy _ hz2

theorem sortSiblings_perm (l : List (String × Tree)) : List.Perm (sortSiblings l) l := by
  induction l with
  | nil => rfl
  | cons x xs ih =>
    exact (insertByKey_perm x (sortSiblings xs)).trans (ih.cons x)

theorem sortSiblings_pairwise (l : List (String × Tree)) :
    (sortSiblings l).Pairwise KeyLeP := by
  induction l with
  | nil => exact List.Pairwise.nil
  | cons x xs ih => exact insertByKey_pairwise x ih

/-! ## Lemmas about build_tree -/

theorem lookupChild_cons (k : String) (c : Tree) (rest : List (String × Tree))
    (w : String) :
    lookupChild (.node ((k, c) :: rest)) w =
      if k == w then some c else lookupChild (.node rest) w := by
  by_cases h : k == w
  · simp [lookupChild, Tree.children, List.find?, h]
  · simp only [lookupChild, Tree.children, List.find?_cons]
    have h' : (k == w) = false := by simpa using h
    simp [h']

theorem updateChild_cons_ne (k v : String) (c : Tree) (rest : List (String × Tree))
    (f : Tree → Tree) (hk : (k == v) = false) :
    updateChild (.node ((k, c) :: rest)) v f =
      .node ((k, c) :: (updateChild (.node rest) v f).children) := by
  by_cases h : rest.any (fun p => p.1 == v)
  · simp [updateChild, List.any_cons, hk, h, updateFirst, Tree.children]
  · have h' : (rest.any fun p => p.1 == v) = false := Bool.eq_false_iff.mpr h
    simp [updateChild, List.any_cons, hk, h', Tree.children]

theorem updateChild_cons_eq (k v : String) (c : Tree) (rest : List (String × Tree))
    (f : Tree → Tree) (hk : (k == v) = true) :
    updateChild (.node ((k, c) :: rest)) v f = .node ((k, f c) :: rest) := by
  simp [updateChild, List.any_cons, hk, updateFirst]

theorem lookupChild_updateChild_self (t : Tree) (v : String) (f : Tree → Tree) :
    lookupChild (updateChild t v f) v =
      some (f ((lookupChild t v).getD (.node []))) := by
  obtain ⟨cs⟩ := t
  induction cs with
  | nil => simp [updateChild, lookupChild, Tree.children, List.find?, updateFirst]
  | cons p rest ih =>
    obtain ⟨k, c⟩ := p
    by_cases hk : (k == v) = true
    · rw [updateChild_cons_eq k v c rest f hk, lookupChild_cons, lookupChild_cons, hk]
      simp
    · have hk' : (k == v) = false := by simpa using hk
      rw [updateChild_cons_ne k v c rest f hk']
      obtain ⟨cs2⟩ : ∃ cs2, updateChild (.node rest) v f = .node cs2 :=
        match updateChild (.node rest) v f with
        | .node cs2 => ⟨cs2, rfl⟩
      rename_i hcs2
      rw [hcs2] at ih ⊢
      rw [Tree.children, lookupChild_cons, lookupChild_cons, hk']
      simpa using ih

theorem lookupChild_updateChild_other (t : Tree) (v w : String) (f : Tree → Tree)
    (hne : w ≠ v) : lookupChild (updateChild t v f) w = lookupChild t w := by
  obtain ⟨cs⟩ := t
  induction cs with
  | nil =>
    have hvw : (v == w) = false := beq_eq_false_iff_ne.mpr (Ne.symm hne)
    simp [updateChild, lookupChild, Tree.children, List.find?, hvw]
  | cons p rest ih =>
    obtain ⟨k, c⟩ := p
    by_cases hk : (k == v) = true
    · rw [updateChild_cons_eq k v c rest f hk, lookupChild_cons, lookupChild_cons]
      have : (k == w) = false := by
        have hkv : k = v := by simpa using hk
        subst hkv
        exact beq_eq_false_iff_ne.mpr (Ne.symm hne)
      simp [this]
    · have hk' : (k == v) = false := by simpa using hk
      rw [updateChild_cons_ne k v c rest f hk']
      obtain ⟨cs2⟩ : ∃ cs2, updateChild (.node rest) v f = .node cs2 :=
        match updateChild (.node rest) v f with
        | .node cs2 => ⟨cs2, rfl⟩
      rename_i hcs2
      rw [hcs2] at ih ⊢
      rw [Tree.children, lookupChild_cons, lookupChild_cons]
      by_cases hw : (k == w) = true
      · simp [hw]
      · have hw' : (k == w) = false := by simpa using hw
        simpa [hw'] using ih

theorem insertRecord_eq_chain (ranks : List String) (r : Record) (t : Tree) :
    insertRecord ranks r t = insertChain t (presentChain ranks r) := by
  induction ranks generalizing t with
  | nil => rfl
  | cons k ks ih =>
    simp only [insertRecord, presentChain]
    cases rget r (lowerStr k) with
    | none => rfl
    | some v =>
      by_cases hv : v == ""
      · simp [hv, insertChain]
      · simp only [hv, if_false, Bool.false_eq_true, insertChain]
        congr 1
        funext c
        exact ih c

theorem hasPath_insertChain_mono (ch : List String) (t : Tree) (p : List String)
    (h : hasPath t p = true) : hasPath (insertChain t ch) p = true := by
  induction ch generalizing t p with
  | nil => exact h
  | cons v vs ih =>
    cases p with
    | nil => rfl
    | cons w ws =>
      simp only [insertChain]
      by_cases hw : w = v
      · subst hw
        simp only [hasPath] at h
        cases hl : lookupChild t w with
        | none => simp [hl] at h
        | some c =>
          rw [hl] at h
          simp only [hasPath, lookupChild_updateChild_self, hl, Option.getD_some]
          exact ih c ws h
      · simp only [hasPath, lookupChild_updateChild_other t v w _ hw]
        simp only [hasPath] at h
        exact h

theorem hasPath_insertChain_self (ch : List String) (t : Tree) :
    hasPath (insertChain t ch) ch = true := by
  induction ch generalizing t with
  | nil => rfl
  | cons v vs ih =>
    simp only [insertChain, hasPath, lookupChild_updateChild_self]
    exact ih _

theorem build_tree_nil_ranks (rows : List Record) :
    build_tree [] rows = .node [] := by
  unfold build_tree
  induction rows with
  | nil => rfl
  | cons r rs ih => simp only [List.foldl_cons, insertRecord]; exact ih

/-! ## Per-parent uniqueness of child names -/

/-- Every children dictionary of the tree has pairwise distinct names; this
is the uniqueness a Python dict enforces per parent. -/
inductive NodupTree : Tree → Prop where
  | mk (cs : List (String × Tree)) :
      (cs.map Prod.fst).Nodup → (∀ p ∈ cs, NodupTree p.2) → NodupTree (.node cs)

theorem NodupTree_empty : NodupTree (.node []) :=
  NodupTree.mk [] List.nodup_nil (by intro p hp; simp at hp)

theorem updateFirst_map_fst (v : String) (f : Tree → Tree)
    (cs : List (String × Tree)) :
    (updateFirst v f cs).map Prod.fst = cs.map Prod.fst := by
  induction cs with
  | nil => rfl
  | cons p rest ih =>
    obtain ⟨k, c⟩ := p
    by_cases hk : (k == v) = true
    · simp [updateFirst, hk]
    · have hk' : (k == v) = false := Bool.eq_false_iff.mpr hk
      simp [updateFirst, hk', ih]

theorem NodupTree_updateChild (t : Tree) (v : String) (f : Tree → Tree)
    (h : NodupTree t) (hf : ∀ c, NodupTree c → NodupTree (f c)) :
    NodupTree (updateChild t v f) := by
  obtain ⟨cs, hkeys, hmem⟩ := h
  by_cases hv : cs.any (fun p => p.1 == v)
  · simp only [updateChild, hv, if_true]
    refine NodupTree.mk _ ?_ ?_
    · rw [updateFirst_map_fst]; exact hkeys
    · intro p hp
      clear hv hkeys
      induction cs with
      | nil => simp [updateFirst] at hp
      | cons q rest ih =>
        obtain ⟨k, c⟩ := q
        by_cases hk : (k == v) = true
        · simp only [updateFirst, hk, if_true] at hp
          rcases List.mem_cons.mp hp with rfl | hp2
          · exact hf c (hmem (k, c) (List.mem_cons_self (k, c) rest))
          · exact hmem p (List.mem_cons_of_mem _ hp2)
        · have hk' : (k == v) = false := Bool.eq_false_iff.mpr hk
          simp only [updateFirst, hk', if_false, Bool.false_eq_true] at hp
          rcases List.mem_cons.mp hp with rfl | hp2
          · exact hmem (k, c) (List.mem_cons_self (k, c) rest)
          · exact ih (fun q hq => hmem q (List.mem_cons_of_mem _ hq)) hp2
  · simp only [updateChild, hv, if_false, Bool.false_eq_true]
    have hnotin : v ∉ cs.map Prod.fst := by
      intro hvin
      rcases List.mem_map.mp hvin with ⟨p, hp, hfst⟩
      exact hv (List.any_of_mem hp (by simp [hfst]))
    refine NodupTree.mk _ ?_ ?_
    · rw [List.map_append]
      simp only [List.map_cons, List.map_nil]
      rw [List.nodup_append]
      refine ⟨hkeys, List.nodup_singleton v, ?_⟩
      intro a ha hb
      simp only [List.mem_singleton] at hb
      subst hb
      exact hnotin ha
    · intro p hp
      rcases List.mem_append.mp hp with hp1 | hp2
      · exact hmem p hp1
      · simp only [List.mem_singleton] at hp2
        subst hp2
        exact hf _ NodupTree_empty

theorem NodupTree_insertChain (ch : List String) (t : Tree)
    (h : NodupTree t) : NodupTree (insertChain t ch) := by
  induction ch generalizing t with
  | nil => exact h
  | cons v vs ih =>
    exact NodupTree_updateChild t v _ h (fun c hc => ih c hc)

theorem NodupTree_build_tree (ranks : List String) (rows : List Record) :
    NodupTree (build_tree ranks rows) := by
  unfold build_tree
  have : ∀ t, NodupTree t →
      NodupTree (rows.foldl (fun t r => insertRecord ranks r t) t) := by
    induction rows with
    | nil => intro t h; exact h
    | cons r rs ih =>
      intro t h
      simp only [List.foldl_cons]
      refine ih _ ?_
      rw [insertRecord_eq_chain]
      exact NodupTree_insertChain _ t h
  exact this _ NodupTree_empty

/-! ## Lemmas about deduplicate_rows -/

theorem dedupGo_sublist (ranks : List String) (rows : List Record)
    (seen : List (List String)) :
    List.Sublist (dedupGo ranks seen rows) rows := by
  induction rows generalizing seen with
  | nil => exact List.Sublist.refl []
  | cons r rs ih =>
    simp only [dedupGo]
    by_cases h : rowKey ranks r ∈ seen
    · simp only [h, if_true]
      exact (ih seen).cons r
    · simp only [h, if_false]
      exact (ih (rowKey ranks r :: seen)).cons₂ r

theorem dedupGo_key_not_seen (ranks : List String) (rows : List Record)
    (seen : List (List String)) :
    ∀ r ∈ dedupGo ranks seen rows, rowKey ranks r ∉ seen := by
  induction rows generalizing seen with
  | nil => intro r hr; simp [dedupGo] at hr
  | cons q rs ih =>
    intro r hr
    simp only [dedupGo] at hr
    by_cases h : rowKey ranks q ∈ seen
    · simp only [h, if_true] at hr
      exact ih seen r hr
    · simp only [h, if_false] at hr
      rcases List.mem_cons.mp hr with rfl | hr2
      · exact h
      · intro hs
        exact ih _ r hr2 (List.mem_cons_of_mem _ hs)

theorem dedupGo_keys_nodup (ranks : List String) (rows : List Record)
    (seen : List (List String)) :
    ((dedupGo ranks seen rows).map (rowKey ranks)).Nodup := by
  induction rows generalizing seen with
  | nil => simp [dedupGo]
  | cons q rs ih =>
    simp only [dedupGo]
    by_cases h : rowKey ranks q ∈ seen
    · simp only [h, if_true]
      exact ih seen
    · simp only [h, if_false, List.map_cons]
      refine List.nodup_cons.mpr ⟨?_, ih _⟩
      intro hin
      rcases List.mem_map.mp hin with ⟨r, hr, hkey⟩
      have := dedupGo_key_not_seen ranks rs _ r hr
      rw [hkey] at this
      exact this (List.mem_cons_self _ _)

theorem dedupGo_covers (ranks : List String) (rows : List Record)
    (seen : List (List String)) :
    ∀ r ∈ rows, rowKey ranks r ∈ seen ∨
      rowKey ranks r ∈ (dedupGo ranks seen rows).map (rowKey ranks) := by
  induction rows generalizing seen with
  | nil => intro r hr; simp at hr
  | cons q rs ih =>
    intro r hr
    simp only [dedupGo]
    by_cases h : rowKey ranks q ∈ seen
    · simp only [h, if_true]
      rcases List.mem_cons.mp hr with rfl | hr2
      · exact Or.inl h
      · exact ih seen r hr2
    · simp only [h, if_false, List.map_cons]
      rcases List.mem_cons.mp hr with rfl | hr2
      · exact Or.inr (List.mem_cons_self _ _)
      · rcases ih (rowKey ranks q :: seen) r hr2 with hin | hin
        · rcases List.mem_cons.mp hin with heq | hseen
          · exact Or.inr (heq ▸ List.mem_cons_self _ _)
          · exact Or.inl hseen
        · exact Or.inr (List.mem_cons_of_mem _ hin)

theorem dedupGo_first (ranks : List String) (rows : List Record)
    (seen : List (List String)) :
    ∀ r ∈ dedupGo ranks seen rows, ∃ l1 l2, rows = l1 ++ r :: l2 ∧
      ∀ q ∈ l1, rowKey ranks q ≠ rowKey ranks r := by
  induction rows generalizing seen with
  | nil => intro r hr; simp [dedupGo] at hr
  | cons q rs ih =>
    intro r hr
    simp only [dedupGo] at hr
    by_cases h : rowKey ranks q ∈ seen
    · simp only [h, if_true] at hr
      obtain ⟨l1, l2, hsplit, hfresh⟩ := ih seen r hr
      refine ⟨q :: l1, l2, by simp [hsplit], ?_⟩
      intro p hp
      rcases List.mem_cons.mp hp with rfl | hp2
      · have hq := dedupGo_key_not_seen ranks rs seen r hr
        intro heq
        exact hq (heq ▸ h)
      · exact hfresh p hp2
    · simp only [h, if_false] at hr
      rcases List.mem_cons.mp hr with rfl | hr2
      · exact ⟨[], rs, rfl, by intro p hp; simp at hp⟩
      · obtain ⟨l1, l2, hsplit, hfresh⟩ := ih (rowKey ranks q :: seen) r hr2
        refine ⟨q :: l1, l2, by simp [hsplit], ?_⟩
        intro p hp
        rcases List.mem_cons.mp hp with rfl | hp2
        · have hq := dedupGo_key_not_seen ranks rs _ r hr2
          intro heq
          exact hq (heq ▸ List.mem_cons_self _ _)
        · exact hfresh p hp2

/-! ## Lemmas about the Mermaid walk -/

theorem defIds_append (a b : List MLine) : defIds (a ++ b) = defIds a ++ defIds b := by
  simp [defIds, List.filterMap_append]

theorem edgePairs_append (a b : List MLine) :
    edgePairs (a ++ b) = edgePairs a ++ edgePairs b := by
  simp [edgePairs, List.filterMap_append]

theorem defIds_defn (i l : String) : defIds [.defn i l] = [i] := rfl

theorem defIds_edge (a b : String) : defIds [.edge a b] = [] := rfl

theorem edgePairs_defn (i l : String) : edgePairs [.defn i l] = [] := rfl

theorem edgePairs_edge (a b : String) : edgePairs [.edge a b] = [(a, b)] := rfl

theorem defBeforeEdge_append (L : List MLine) (x : MLine) (hL : DefBeforeEdge L)
    (hx : ∀ a b, x = .edge a b → a ∈ defIds L ∧ b ∈ defIds L) :
    DefBeforeEdge (L ++ [x]) := by
  intro l1 a b l2 h
  rcases List.eq_nil_or_concat l2 with rfl | ⟨l2h, y, rfl⟩
  · have hlen : L.length = l1.length := by
      have hc := congrArg List.length h
      simp only [List.length_append, List.length_cons, List.length_nil] at hc
      omega
    obtain ⟨hL1, hx1⟩ := List.append_inj h hlen
    have hxe : x = .edge a b := by
      have := hx1
      simp only [List.cons.injEq] at this
      exact this.1
    rcases hx a b hxe with ⟨ha, hb⟩
    rw [hL1] at ha hb
    exact ⟨ha, hb⟩
  · have h2 : L ++ [x] = (l1 ++ MLine.edge a b :: l2h) ++ [y] := by
      rw [h]
      simp [List.append_assoc, List.concat_eq_append]
    have hlen : L.length = (l1 ++ MLine.edge a b :: l2h).length := by
      have hc := congrArg List.length h2
      simp only [List.length_append, List.length_cons, List.length_nil] at hc ⊢
      omega
    obtain ⟨hL1, _⟩ := List.append_inj h2 hlen
    exact hL l1 a b l2h hL1

/-- The three walk invariants: created_nodes lists exactly the identifiers
of the definition lines, without repetition, and every edge line follows
definitions of both of its endpoints. -/
def WalkInv (st : WalkSt) : Prop :=
  st.created = defIds st.lines ∧ st.created.Nodup ∧ DefBeforeEdge st.lines

theorem defStep_lines_front (rk : Option String) (n : String) (st : WalkSt) :
    List.IsPrefix st.lines (defStep rk n st).lines := by
  unfold defStep
  by_cases h : nidFor rk n ∈ st.created
  · simp [h]
  · simp only [h, if_false]
    exact ⟨_, rfl⟩

theorem defStep_created_front (rk : Option String) (n : String) (st : WalkSt) :
    List.IsPrefix st.created (defStep rk n st).created := by
  unfold defStep
  by_cases h : nidFor rk n ∈ st.created
  · simp [h]
  · simp only [h, if_false]
    exact ⟨_, rfl⟩

theorem defStep_mem_created (rk : Option String) (n : String) (st : WalkSt) :
    nidFor rk n ∈ (defStep rk n st).created := by
  unfold defStep
  by_cases h : nidFor rk n ∈ st.created
  · simp only [if_pos h]
    exact h
  · simp [h]

theorem edgeStep_created (ranks : List String) (ri : Nat) (parent : Option String)
    (nid : String) (st : WalkSt) : (edgeStep ranks ri parent nid st).created = st.created := by
  unfold edgeStep
  cases parent <;> rfl

theorem edgeStep_lines_front (ranks : List String) (ri : Nat)
    (parent : Option String) (nid : String) (st : WalkSt) :
    List.IsPrefix st.lines (edgeStep ranks ri parent nid st).lines := by
  unfold edgeStep
  cases parent with
  | none => exact List.prefix_refl _
  | some p => exact ⟨_, rfl⟩

theorem defStep_inv (rk : Option String) (n : String) (st : WalkSt)
    (h : WalkInv st) : WalkInv (defStep rk n st) := by
  obtain ⟨h1, h2, h3⟩ := h
  unfold defStep
  by_cases hm : nidFor rk n ∈ st.created
  · simpa [hm] using ⟨h1, h2, h3⟩
  · simp only [hm, if_false]
    refine ⟨?_, ?_, ?_⟩
    · simp [defIds_append, h1, defIds_defn]
    · simp only [List.nodup_append, List.nodup_singleton]
      refine ⟨h2, True.intro, ?_⟩
      intro a ha hb
      simp only [List.mem_singleton] at hb
      subst hb
      exact hm ha
    · exact defBeforeEdge_append _ _ h3 (by intro a b hab; cases hab)

theorem edgeStep_inv (ranks : List String) (ri : Nat) (parent : Option String)
    (nid : String) (st : WalkSt) (h : WalkInv st)
    (hp : ∀ p, parent = some p → parentIdFor ranks ri p ∈ st.created)
    (hn : nid ∈ st.created) : WalkInv (edgeStep ranks ri parent nid st) := by
  obtain ⟨h1, h2, h3⟩ := h
  unfold edgeStep
  cases parent with
  | none => exact ⟨h1, h2, h3⟩
  | some p =>
    refine ⟨?_, h2, ?_⟩
    · simp [defIds_append, h1, defIds_edge]
    · refine defBeforeEdge_append _ _ h3 ?_
      intro a b hab
      simp only [MLine.edge.injEq] at hab
      obtain ⟨ha, hb⟩ := hab
      subst ha; subst hb
      constructor
      · rw [← h1]; exact hp p rfl
      · rw [← h1]; exact hn

theorem walk_lines_front (fuel : Nat) (items : List (String × Tree)) (ri : Nat)
    (ranks : List String) (parent : Option String) (st : WalkSt) :
    List.IsPrefix st.lines (walkF fuel items ri ranks parent st).lines := by
  induction fuel generalizing items ri parent st with
  | zero => exact List.prefix_refl _
  | succ f ih =>
    cases items with
    | nil => exact List.prefix_refl _
    | cons hd rest =>
      obtain ⟨name, child⟩ := hd
      simp only [walkF]
      have hstep : List.IsPrefix st.lines
          (edgeStep ranks ri parent
            (nidFor (rankAt ranks ri) (nodeNameFor (rankAt ranks ri) parent name))
            (defStep (rankAt ranks ri) (nodeNameFor (rankAt ranks ri) parent name) st)).lines :=
        (defStep_lines_front _ _ _).trans (edgeStep_lines_front _ _ _ _ _)
      by_cases hc : child.children.isEmpty
      · simp only [hc, if_true]
        exact hstep.trans (ih _ _ _ _)
      · simp only [hc, if_false]
        exact (hstep.trans (ih _ _ _ _)).trans (ih _ _ _ _)

theorem walk_created_front (fuel : Nat) (items : List (String × Tree)) (ri : Nat)
    (ranks : List String) (parent : Option String) (st : WalkSt) :
    List.IsPrefix st.created (walkF fuel items ri ranks parent st).created := by
  induction fuel generalizing items ri parent st with
  | zero => exact List.prefix_refl _
  | succ f ih =>
    cases items with
    | nil => exact List.prefix_refl _
    | cons hd rest =>
      obtain ⟨name, child⟩ := hd
      simp only [walkF]
      have hstep : List.IsPrefix st.created
          (edgeStep ranks ri parent
            (nidFor (rankAt ranks ri) (nodeNameFor (rankAt ranks ri) parent name))
            (defStep (rankAt ranks ri) (nodeNameFor (rankAt ranks ri) parent name) st)).created := by
        rw [edgeStep_created]
        exact defStep_created_front _ _ _
      by_cases hc : child.children.isEmpty
      · simp only [hc, if_true]
        exact hstep.trans (ih _ _ _ _)
      · simp only [hc, if_false]
        exact (hstep.trans (ih _ _ _ _)).trans (ih _ _ _ _)

theorem parentIdFor_succ (ranks : List String) (ri : Nat) (p : String) :
    parentIdFor ranks (ri + 1) p = nidFor (rankAt ranks ri) p := by
  simp [parentIdFor, nidFor, rankAt]

theorem walk_inv (fuel : Nat) (items : List (String × Tree)) (ri : Nat)
    (ranks : List String) (parent : Option String) (st : WalkSt)
    (h : WalkInv st)
    (hp : ∀ p, parent = some p → parentIdFor ranks ri p ∈ st.created) :
    WalkInv (walkF fuel items ri ranks parent st) := by
  induction fuel generalizing items ri parent st with
  | zero => exact h
  | succ f ih =>
    cases items with
    | nil => exact h
    | cons hd rest =>
      obtain ⟨name, child⟩ := hd
      simp only [walkF]
      set rk := rankAt ranks ri with hrk
      set nodeName := nodeNameFor rk parent name with hnn
      set st1 := defStep rk nodeName st with hst1
      set st2 := edgeStep ranks ri parent (nidFor rk nodeName) st1 with hst2
      have hinv1 : WalkInv st1 := defStep_inv rk nodeName st h
      have hnid1 : nidFor rk nodeName ∈ st1.created := defStep_mem_created rk nodeName st
      have hp1 : ∀ p, parent = some p → parentIdFor ranks ri p ∈ st1.created := by
        intro p hpar
        exact (defStep_created_front rk nodeName st).sublist.subset (hp p hpar)
      have hinv2 : WalkInv st2 := edgeStep_inv ranks ri parent _ st1 hinv1 hp1 hnid1
      have hnid2 : nidFor rk nodeName ∈ st2.created := by
        rw [hst2, edgeStep_created]
        exact hnid1
      have hp2 : ∀ p, parent = some p → parentIdFor ranks ri p ∈ st2.created := by
        intro p hpar
        rw [hst2, edgeStep_created]
        exact hp1 p hpar
      by_cases hc : child.children.isEmpty
      · simp only [hc, if_true]
        exact ih rest ri parent st2 hinv2 hp2
      · simp only [hc, if_false]
        have hinv3 : WalkInv (walkF f (sortSiblings child.children) (ri + 1) ranks
            (some nodeName) st2) := by
          refine ih _ _ _ _ hinv2 ?_
          intro p hpar
          simp only [Option.some.injEq] at hpar
          subst hpar
          rw [parentIdFor_succ]
          exact hnid2
        refine ih rest ri parent _ hinv3 ?_
        intro p hpar
        exact (walk_created_front f (sortSiblings child.children) (ri + 1) ranks
          (some nodeName) st2).sublist.subset (hp2 p hpar)

theorem walk_visit_sub (fuel : Nat) (items : List (String × Tree)) (ri : Nat)
    (ranks : List String) (parent : Option String) (st : WalkSt) :
    ∀ x ∈ visitIds fuel items ri ranks parent,
      x ∈ (walkF fuel items ri ranks parent st).created := by
  induction fuel generalizing items ri parent st with
  | zero => intro x hx; simp [visitIds] at hx
  | succ f ih =>
    cases items with
    | nil => intro x hx; simp [visitIds] at hx
    | cons hd rest =>
      obtain ⟨name, child⟩ := hd
      intro x hx
      simp only [visitIds, List.mem_append, List.mem_cons] at hx
      simp only [walkF]
      set rk := rankAt ranks ri with hrk
      set nodeName := nodeNameFor rk parent name with hnn
      set st2 := edgeStep ranks ri parent (nidFor rk nodeName) (defStep rk nodeName st) with hst2
      have hnid2 : nidFor rk nodeName ∈ st2.created := by
        rw [hst2, edgeStep_created]
        exact defStep_mem_created rk nodeName st
      by_cases hc : child.children.isEmpty
      · simp only [hc, if_true]
        rcases hx with (rfl | hfalse) | hrest
        · exact (walk_created_front f rest ri ranks parent st2).sublist.subset hnid2
        · simp [hc] at hfalse
        · exact ih rest ri parent st2 x hrest
      · simp only [hc, if_false]
        rcases hx with (rfl | hchild) | hrest
        · refine (walk_created_front f rest ri ranks parent _).sublist.subset ?_
          refine (walk_created_front f (sortSiblings child.children) (ri + 1) ranks
            (some nodeName) st2).sublist.subset hnid2
        · simp only [hc, if_false] at hchild
          exact (walk_created_front f rest ri ranks parent _).sublist.subset
            (ih (sortSiblings child.children) (ri + 1) (some nodeName) st2 x hchild)
        · exact ih rest ri parent _ x hrest

theorem defStep_edgePairs (rk : Option String) (n : String) (st : WalkSt) :
    edgePairs (defStep rk n st).lines = edgePairs st.lines := by
  unfold defStep
  by_cases h : nidFor rk n ∈ st.created
  · simp [h]
  · simp [h, edgePairs_append, edgePairs_defn]

theorem edgeStep_edgePairs (ranks : List String) (ri : Nat) (parent : Option String)
    (nid : String) (st : WalkSt) :
    edgePairs (edgeStep ranks ri parent nid st).lines =
      edgePairs st.lines ++
        (match parent with
         | some p => [(parentIdFor ranks ri p, nid)]
         | none => []) := by
  unfold edgeStep
  cases parent with
  | none => simp
  | some p => simp [edgePairs_append, edgePairs_edge]

theorem walk_edges (fuel : Nat) (items : List (String × Tree)) (ri : Nat)
    (ranks : List String) (parent : Option String) (st : WalkSt) :
    edgePairs (walkF fuel items ri ranks parent st).lines =
      edgePairs st.lines ++ visitEdges fuel items ri ranks parent := by
  induction fuel generalizing items ri parent st with
  | zero => simp [walkF, visitEdges]
  | succ f ih =>
    cases items with
    | nil => simp [walkF, visitEdges]
    | cons hd rest =>
      obtain ⟨name, child⟩ := hd
      cases parent with
      | none =>
        simp only [walkF, visitEdges]
        have h2 : edgePairs (edgeStep ranks ri none
            (nidFor (rankAt ranks ri) (nodeNameFor (rankAt ranks ri) none name))
            (defStep (rankAt ranks ri) (nodeNameFor (rankAt ranks ri) none name) st)).lines =
            edgePairs st.lines := by
          rw [edgeStep_edgePairs, defStep_edgePairs]
          simp
        by_cases hc : child.children.isEmpty
        · simp only [if_pos hc]
          rw [ih, h2]
          simp
        · simp only [if_neg hc]
          rw [ih, ih, h2]
          simp [List.append_assoc]
      | some p =>
        simp only [walkF, visitEdges]
        have h2 : edgePairs (edgeStep ranks ri (some p)
            (nidFor (rankAt ranks ri) (nodeNameFor (rankAt ranks ri) (some p) name))
            (defStep (rankAt ranks ri) (nodeNameFor (rankAt ranks ri) (some p) name) st)).lines =
            edgePairs st.lines ++
              [(parentIdFor ranks ri p,
                nidFor (rankAt ranks ri) (nodeNameFor (rankAt ranks ri) (some p) name))] := by
          rw [edgeStep_edgePairs, defStep_edgePairs]
        by_cases hc : child.children.isEmpty
        · simp only [if_pos hc]
          rw [ih, h2]
          simp [List.append_assoc]
        · simp only [if_neg hc]
          rw [ih, ih, h2]
          simp [List.append_assoc]

/-! ## Further derived lemmas about insertion -/

theorem hasPath_insertRecord_mono (ranks : List String) (r : Record) (t : Tree)
    (p : List String) (h : hasPath t p = true) :
    hasPath (insertRecord ranks r t) p = true := by
  rw [insertRecord_eq_chain]
  exact hasPath_insertChain_mono _ t p h

theorem hasPath_insertRecord_self (ranks : List String) (r : Record) (t : Tree) :
    hasPath (insertRecord ranks r t) (presentChain ranks r) = true := by
  rw [insertRecord_eq_chain]
  exact hasPath_insertChain_self _ t

/-! ## Concrete records used by the claims -/

/-- A record with Kingdom absent, Phylum Arthropoda, Species Bug. -/
def rcSparse : Record := [("phylum", some "Arthropoda"), ("species", some "Bug")]

/-- A record with Kingdom present, Class present, Phylum absent. -/
def rcGap : Record := [("kingdom", some "Animalia"), ("class", some "Insecta")]

def rc2a : Record := [("kingdom", some "Fungi"), ("phylum", some "Shared")]

def rc2b : Record := [("kingdom", some "Plantae"), ("phylum", some "Shared")]

def rc3a : Record := [("kingdom", some "Chromista"), ("phylum", some "Twice")]

def rc3b : Record := [("kingdom", some "Protista"), ("phylum", some "Twice")]

def rc5 : Record := [("kingdom", some "Animalia")]

/-! ## Claims -/

/-- C1 counterexample: the record with Kingdom absent, Phylum Arthropoda and
Species Bug produces an empty tree: no Arthropoda node is attached under the
root at all, because build_tree stops at the first absent rank instead of
skipping it. -/
theorem C1_counterexample :
    build_tree RANK_KEYS [rcSparse] = Tree.node [] ∧
    rget rcSparse "kingdom" = none ∧
    rget rcSparse "phylum" = some "Arthropoda" := by
  refine ⟨rfl, rfl, rfl⟩

/-- C1 amended: for every record folded by build_tree, only the maximal
prefix of consecutively present ranks from the front of the schema is
attached, one node under the previous one; at the first absent or empty
rank the record contributes nothing further, so ranks after a gap are
dropped rather than attached under the nearest earlier present rank.  A
record whose first rank is absent therefore produces no nodes, as the
concrete gap record shows: its Class value is dropped because Phylum is
absent. -/
theorem C1_amended_prefix_only :
    (∀ ranks (r : Record) (t : Tree),
      insertRecord ranks r t = insertChain t (presentChain ranks r)) ∧
    presentChain RANK_KEYS rcGap = ["Animalia"] ∧
    build_tree RANK_KEYS [rcGap] = Tree.node [("Animalia", Tree.node [])] := by
  refine ⟨insertRecord_eq_chain, rfl, rfl⟩

/-- C2 counterexample: after folding two records that place the same
Phylum name Shared under the Kingdoms Fungi and Plantae, the final tree
has a child named Shared under both parents; the second attachment was not
discarded, refuting first-parent-wins. -/
theorem C2_counterexample :
    parentsOf (build_tree RANK_KEYS [rc2a, rc2b]) "Shared" =
      ["Fungi", "Plantae"] := by
  rfl

/-- C2 amended: insertion never discards an attachment.  Every path already
present in the tree is preserved by every later record, and each record
establishes the path of its own present-rank chain; hence a later record
attaching an equally named node under a different parent keeps both
parent-child edges, as the concrete pair of records shows. -/
theorem C2_amended_no_discard :
    (∀ ranks (r : Record) (t : Tree) (p : List String),
      hasPath t p = true → hasPath (insertRecord ranks r t) p = true) ∧
    (∀ ranks (r : Record) (t : Tree),
      hasPath (insertRecord ranks r t) (presentChain ranks r) = true) ∧
    hasPath (build_tree RANK_KEYS [rc2a, rc2b]) ["Fungi", "Shared"] = true ∧
    hasPath (build_tree RANK_KEYS [rc2a, rc2b]) ["Plantae", "Shared"] = true := by
  refine ⟨hasPath_insertRecord_mono, hasPath_insertRecord_self, rfl, rfl⟩

/-- C2 witness: the preservation part of the amended claim applied at a
concrete input, with the hypothesis discharged by evaluation. -/
theorem C2_amended_no_discard_witness :
    hasPath (insertRecord RANK_KEYS rc2b (build_tree RANK_KEYS [rc2a]))
      ["Fungi", "Shared"] = true :=
  C2_amended_no_discard.1 RANK_KEYS rc2b (build_tree RANK_KEYS [rc2a])
    ["Fungi", "Shared"] (by rfl)

/-- C3 counterexample: two records specifying the same name Twice at the
same rank Phylum under different Kingdoms yield two separate Phylum
entries named Twice, one under each parent, not one single globally shared
node: the total number of children named Twice across the parents is two. -/
theorem C3_counterexample :
    build_tree RANK_KEYS [rc3a, rc3b] =
      Tree.node [("Chromista", Tree.node [("Twice", Tree.node [])]),
                 ("Protista", Tree.node [("Twice", Tree.node [])])] ∧
    ((build_tree RANK_KEYS [rc3a, rc3b]).children.map
      (fun p => childCount p.2 "Twice")).sum = 2 := by
  refine ⟨rfl, rfl⟩

/-- C3 amended: node identity in the built tree is scoped per parent, not
globally: within any one parent dictionary the child names are pairwise
distinct, so folding two records that agree on a name at a rank under the
same parent chain yields a single node there, while the same (rank, name)
under different parent chains yields distinct nodes. -/
theorem C3_amended_per_parent_unique (ranks : List String) (rows : List Record) :
    NodupTree (build_tree ranks rows) :=
  NodupTree_build_tree ranks rows

/-- C5 counterexample: hierarchy construction with an empty rank schema is
not rejected: build_tree runs to completion on a record and silently
returns the empty tree, surfacing no error. -/
theorem C5_counterexample : build_tree [] [rc5] = Tree.node [] := by
  rfl

/-- C5 amended: with an empty rank schema, build_tree accepts every record
sequence and silently produces the empty tree; the core raises no
configuration error at all, consistent with its silent degradation of all
other malformed input. -/
theorem C5_amended_empty_schema_silent (rows : List Record) :
    build_tree [] rows = Tree.node [] :=
  build_tree_nil_ranks rows

def r4a : Record := []

def r4b : Record := [("kingdom", some "")]

def rc7 : Record := [("kingdom", some "Animalia"), ("phylum", some "O\x27Brien\x27s Moth")]

def rc8a : Record := [("kingdom", some "Zebra")]

def rc8b : Record := [("kingdom", some "apple")]

def rc8c : Record := [("kingdom", some "Mango")]

/-- C4 counterexample: a record whose Kingdom is absent and a record whose
Kingdom is the empty string are distinct records, and under the claimed
equivalence (absent distinct from every string, the empty string included)
they are not duplicates; yet deduplicate_rows drops the second one, because
its key expression coalesces an absent value to the empty string. -/
theorem C4_counterexample :
    deduplicate_rows RANK_KEYS [r4a, r4b] = [r4a] ∧
    rget r4a "kingdom" = none ∧
    rget r4b "kingdom" = some "" ∧
    r4a ≠ r4b := by
  refine ⟨rfl, rfl, rfl, by decide⟩

/-- C4 amended: deduplicate_rows keeps exactly the first occurrence of each
equivalence class and preserves input order, where two records are
duplicates iff their values coalesced by the expression value-or-empty are
equal at every rank of the schema; an absent value is therefore identified
with the empty string rather than kept distinct from it.  Formally: the
output is a sublist of the input (order preserved), output keys are
pairwise distinct (one representative per class), every input key is
represented, and each kept record is the first of its class. -/
theorem C4_amended_dedupe (ranks : List String) (rows : List Record) :
    List.Sublist (deduplicate_rows ranks rows) rows ∧
    ((deduplicate_rows ranks rows).map (rowKey ranks)).Nodup ∧
    (∀ r ∈ rows, rowKey ranks r ∈ (deduplicate_rows ranks rows).map (rowKey ranks)) ∧
    (∀ r ∈ deduplicate_rows ranks rows, ∃ l1 l2, rows = l1 ++ r :: l2 ∧
      ∀ q ∈ l1, rowKey ranks q ≠ rowKey ranks r) := by
  refine ⟨dedupGo_sublist ranks rows [], dedupGo_keys_nodup ranks rows [], ?_, ?_⟩
  · intro r hr
    rcases dedupGo_covers ranks rows [] r hr with hin | hin
    · exact absurd hin (List.not_mem_nil _)
    · exact hin
  · exact dedupGo_first ranks rows []

/-- C4 witness: the coverage part of the amended claim applied at a
concrete input, discharging the membership hypothesis by evaluation. -/
theorem C4_amended_dedupe_witness :
    rowKey RANK_KEYS r4b ∈
      (deduplicate_rows RANK_KEYS [r4a, r4b]).map (rowKey RANK_KEYS) :=
  (C4_amended_dedupe RANK_KEYS [r4a, r4b]).2.2.1 r4b
    (List.mem_cons_of_mem r4a (List.mem_cons_self r4b []))

/-- C7: in the Newick serializer, a label containing one of the characters
comma, parenthesis, colon, semicolon, whitespace or a quote is wrapped in
single quotes with inner single quotes doubled; leaf names get spaces
replaced by underscores before escaping, so the leaf taxon named O Brien s
Moth (with apostrophes) appears in the output as the single-quoted form
with doubled apostrophes and an underscore; and the whole output of
build_newick is one parenthesized expression terminated by a semicolon. -/
theorem C7_label_escaping :
    (∀ s : String, (∃ c ∈ s.data, needsQuoteChar c = true) →
      esc_label s = "\x27" ++ doubleQuotes s ++ "\x27") ∧
    render_newick [rc7] =
      "((\x27O\x27\x27Brien\x27\x27s_Moth\x27)\x27Kingdom:Animalia\x27);" ∧
    (∀ (fuel : Nat) (t : Tree), ∃ m, build_newick fuel t = "(" ++ m ++ ");") := by
  refine ⟨?_, rfl, ?_⟩
  · intro s hs
    obtain ⟨c, hc, hq⟩ := hs
    unfold esc_label
    rw [if_pos (List.any_of_mem hc hq)]
  · intro fuel t
    exact ⟨_, rfl⟩

/-- C7 witness: the escaping rule applied at a concrete label containing a
space, with the hypothesis discharged by evaluation. -/
theorem C7_label_escaping_witness : esc_label "a b" = "\x27a b\x27" := by
  have h := C7_label_escaping.1 "a b" ⟨' ', by decide, by decide⟩
  rw [h]
  rfl

/-- C8: both serializers traverse each sibling dictionary through the same
sort, which orders entries ascending by the case-insensitive lexical
comparison of their names while keeping exactly the original entries; on a
concrete tree whose insertion order is Zebra, apple, Mango, both the
Newick output and the sequence of node-definition identifiers of the
Mermaid output list the siblings as apple, Mango, Zebra. -/
theorem C8_sibling_order :
    (∀ l : List (String × Tree),
      (sortSiblings l).Pairwise KeyLeP ∧ List.Perm (sortSiblings l) l) ∧
    render_newick [rc8a, rc8b, rc8c] = "(apple,Mango,Zebra);" ∧
    defIds (render_mermaid_lines "T" "TD" [rc8a, rc8b, rc8c]) =
      [identify "Kingdom" "apple", identify "Kingdom" "Mango",
       identify "Kingdom" "Zebra"] := by
  refine ⟨fun l => ⟨sortSiblings_pairwise l, sortSiblings_perm l⟩, rfl, rfl⟩

/-! ## Lemmas about the identifier alphabet -/

theorem hexDigitChar_isAlphanum (n : Nat) : (hexDigitChar n).isAlphanum = true := by
  unfold hexDigitChar
  split <;> decide

theorem mem_hex8_isAlphanum (n : Nat) : ∀ c ∈ hex8 n, c.isAlphanum = true := by
  intro c hc
  simp only [hex8, List.mem_cons, List.not_mem_nil, or_false] at hc
  rcases hc with rfl | rfl | rfl | rfl | rfl | rfl | rfl | rfl <;>
    exact hexDigitChar_isAlphanum _

theorem sha1hexChars_isAlphanum (s : String) :
    ∀ c ∈ sha1hexChars s, c.isAlphanum = true := by
  intro c hc
  unfold sha1hexChars at hc
  obtain ⟨a, b, c2, d, e⟩ :=
    (blocks64 ((sha1pad (utf8Bytes s)).length / 64) (sha1pad (utf8Bytes s))).foldl
      sha1block (1732584193, 4023233417, 2562383102, 271733878, 3285377520)
  simp only [List.mem_append] at hc
  rcases hc with (((h | h) | h) | h) | h <;> exact mem_hex8_isAlphanum _ c h

theorem sha1hexChars_length (s : String) : (sha1hexChars s).length = 40 := by
  unfold sha1hexChars
  obtain ⟨a, b, c2, d, e⟩ :=
    (blocks64 ((sha1pad (utf8Bytes s)).length / 64) (sha1pad (utf8Bytes s))).foldl
      sha1block (1732584193, 4023233417, 2562383102, 271733878, 3285377520)
  simp [hex8]

def rc10a : Record := [("kingdom", some "K"), ("phylum", some "P"),
  ("class", some "C"), ("order", some "O"), ("family", some "F"),
  ("genus", some "G1"), ("species", some "communis")]

def rc10b : Record := [("kingdom", some "K"), ("phylum", some "P"),
  ("class", some "C"), ("order", some "O"), ("family", some "F"),
  ("genus", some "G2"), ("species", some "communis")]

/-- C9 counterexample: two distinct (rank, name) pairs with the same
identifier.  The two names share their first twenty sanitized characters
and their SHA-1 digests agree on the first ten hex digits, so safe_id
collides, refuting injectivity of the identifier function. -/
theorem C9_counterexample :
    identify "Species" "AAAAAAAAAAA10f740" = identify "Species" "AAAAAAAAAAA137750" ∧
    ("AAAAAAAAAAA10f740" : String) ≠ "AAAAAAAAAAA137750" := by
  exact ⟨rfl, by decide⟩

/-- C9 amended: the identifier function is a pure function of the rank and
name (determinism holds by construction in this embedding), its output uses
only alphanumeric characters and underscores, and two (rank, name) pairs
receive distinct identifiers whenever the first ten hex digits of their
SHA-1 digests differ; unrestricted injectivity fails because the digest is
truncated, as the counterexample shows. -/
theorem C9_amended_identifier :
    (∀ rank name : String, ∀ c ∈ (identify rank name).data,
      c.isAlphanum = true ∨ c = '_') ∧
    (∀ r1 n1 r2 n2 : String,
      (sha1hexChars (r1 ++ "::" ++ n1)).take 10 ≠
        (sha1hexChars (r2 ++ "::" ++ n2)).take 10 →
      identify r1 n1 ≠ identify r2 n2) := by
  constructor
  · intro rank name c hc
    simp only [identify, safe_id, List.mem_append, List.mem_cons] at hc
    rcases hc with (rfl | rfl | hpre) | (rfl | htake)
    · left; decide
    · right; rfl
    · have hmem := List.mem_of_mem_take hpre
      rcases List.mem_map.mp hmem with ⟨x, _, hx⟩
      by_cases hax : x.isAlphanum = true
      · rw [if_pos hax] at hx
        subst hx
        exact Or.inl hax
      · rw [if_neg hax] at hx
        right
        exact hx.symm
    · right; rfl
    · exact Or.inl (sha1hexChars_isAlphanum _ c (List.mem_of_mem_take htake))
  · intro r1 n1 r2 n2 hne heq
    apply hne
    have hdata := congrArg String.data heq
    simp only [identify, safe_id] at hdata
    have hlen : ('_' :: (sha1hexChars (r1 ++ "::" ++ n1)).take 10).length =
        ('_' :: (sha1hexChars (r2 ++ "::" ++ n2)).take 10).length := by
      simp [List.length_take, sha1hexChars_length]
    obtain ⟨_, htail⟩ := List.append_inj' hdata hlen
    exact (List.cons.injEq _ _ _ _).mp htail |>.2

/-- C9 witness: the sufficient distinctness condition of the amended claim
applied at a concrete pair, discharging the digest hypothesis by
evaluation. -/
theorem C9_amended_identifier_witness :
    identify "Kingdom" "a" ≠ identify "Kingdom" "b" :=
  C9_amended_identifier.2 "Kingdom" "a" "Kingdom" "b" (by decide)

/-- C10: at the species rank the walk names the node by the immediate
parent name, a space, and the species value, for any parent whatsoever (no
check that the parent is a Genus); that binomial is used both for the
identifier and as the bare label of the definition line, and consequently
an equal species value under two different genera yields two distinct
nodes, as the concrete records with species communis under genera G1 and
G2 show. -/
theorem C10_species_binomial :
    (∀ p name : String,
      nodeNameFor (rankAt RANK_KEYS 6) (some p) name = p ++ " " ++ name ∧
      labelFor (rankAt RANK_KEYS 6) (p ++ " " ++ name) = p ++ " " ++ name ∧
      nidFor (rankAt RANK_KEYS 6) (p ++ " " ++ name) =
        identify "Species" (p ++ " " ++ name)) ∧
    MLine.defn (identify "Species" "G1 communis") "G1 communis" ∈
      render_mermaid_lines "T" "TD" [rc10a, rc10b] ∧
    MLine.defn (identify "Species" "G2 communis") "G2 communis" ∈
      render_mermaid_lines "T" "TD" [rc10a, rc10b] ∧
    identify "Species" "G1 communis" ≠ identify "Species" "G2 communis" := by
  refine ⟨fun p name => ⟨rfl, rfl, rfl⟩, by decide, by decide, by decide⟩

/-! ## Claim C6 -/

theorem defBeforeEdge_of_edgePairs_nil (L : List MLine) (h : edgePairs L = []) :
    DefBeforeEdge L := by
  intro l1 a b l2 hsplit
  exfalso
  have hmem : (a, b) ∈ edgePairs L := by
    rw [hsplit, edgePairs_append]
    apply List.mem_append_right
    simp [edgePairs]
  rw [h] at hmem
  exact List.not_mem_nil _ hmem

def rc6a : Record := [("kingdom", some "Anim"), ("phylum", some "Arth"),
  ("class", some "Ins")]

def rc6b : Record := [("kingdom", some "Plant"), ("phylum", some "Arth"),
  ("class", some "Ins")]

def rc6w : Record := [("kingdom", some "W")]

/-- C6 counterexample: in the graph output for two records that share the
Phylum name Arth (under different Kingdoms) and the Class name Ins, the
parent-to-child relationship between the Arth node and the Ins node is
emitted twice: the identical edge line appears twice in the output, even
though each of the two node identifiers has exactly one definition line.
This refutes the exactly-one-edge-line part of the claim. -/
theorem C6_counterexample :
    (edgePairs (render_mermaid_lines "T" "TD" [rc6a, rc6b])).count
      (identify "Phylum" "Arth", identify "Class" "Ins") = 2 ∧
    (defIds (render_mermaid_lines "T" "TD" [rc6a, rc6b])).count
      (identify "Phylum" "Arth") = 1 ∧
    (defIds (render_mermaid_lines "T" "TD" [rc6a, rc6b])).count
      (identify "Class" "Ins") = 1 := by
  refine ⟨by decide, by decide, by decide⟩

/-- C6 amended: the graph output begins with the generated-timestamp
comment line followed by the graph-direction line; every identifier the
walk visits receives a node-definition line, and definition identifiers
are pairwise distinct (exactly one definition line per visited node);
every edge line is preceded by definition lines of both of its endpoint
identifiers; and the edge lines are exactly one per parent-to-child
occurrence in the traversal, in traversal order — so a relationship whose
(rank, name) pair occurs under several chains is emitted once per
occurrence, possibly repeating an identical line, rather than exactly
once. -/
theorem C6_amended_graph_output (ts dir : String) (rows : List Record) :
    (render_mermaid_lines ts dir rows).head? =
      some (.raw ("%% Generated " ++ ts ++ "Z")) ∧
    (render_mermaid_lines ts dir rows)[1]? = some (.raw ("graph " ++ dir)) ∧
    (defIds (render_mermaid_lines ts dir rows)).Nodup ∧
    (∀ x ∈ visitIds (rowsFuel rows)
        (sortSiblings (build_tree RANK_KEYS rows).children) 0 RANK_KEYS none,
      x ∈ defIds (render_mermaid_lines ts dir rows)) ∧
    DefBeforeEdge (render_mermaid_lines ts dir rows) ∧
    edgePairs (render_mermaid_lines ts dir rows) =
      visitEdges (rowsFuel rows)
        (sortSiblings (build_tree RANK_KEYS rows).children) 0 RANK_KEYS none := by
  have hInv0 : WalkInv
      { lines := [.raw ("%% Generated " ++ ts ++ "Z"), .raw ("graph " ++ dir)],
        created := ([] : List String) } :=
    ⟨rfl, List.nodup_nil, defBeforeEdge_of_edgePairs_nil _ rfl⟩
  have hpar : ∀ p, (none : Option String) = some p →
      parentIdFor RANK_KEYS 0 p ∈
        ({ lines := [.raw ("%% Generated " ++ ts ++ "Z"), .raw ("graph " ++ dir)],
           created := ([] : List String) } : WalkSt).created := by
    intro p hp
    cases hp
  have hfin := walk_inv (rowsFuel rows)
    (sortSiblings (build_tree RANK_KEYS rows).children) 0 RANK_KEYS none
    { lines := [.raw ("%% Generated " ++ ts ++ "Z"), .raw ("graph " ++ dir)],
      created := [] } hInv0 hpar
  obtain ⟨hcr, hnd, hdbe⟩ := hfin
  have hpre := walk_lines_front (rowsFuel rows)
    (sortSiblings (build_tree RANK_KEYS rows).children) 0 RANK_KEYS none
    { lines := [.raw ("%% Generated " ++ ts ++ "Z"), .raw ("graph " ++ dir)],
      created := [] }
  obtain ⟨suf, hsuf⟩ := hpre
  refine ⟨?_, ?_, ?_, ?_, ?_, ?_⟩
  · show (walkF _ _ _ _ _ _).lines.head? = _
    rw [← hsuf]
    rfl
  · show (walkF _ _ _ _ _ _).lines[1]? = _
    rw [← hsuf]
    simp
  · show (defIds (walkF _ _ _ _ _ _).lines).Nodup
    rw [← hcr]
    exact hnd
  · intro x hx
    show x ∈ defIds (walkF _ _ _ _ _ _).lines
    rw [← hcr]
    exact walk_visit_sub _ _ _ _ _ _ x hx
  · exact hdbe
  · show edgePairs (walkF _ _ _ _ _ _).lines = _
    rw [walk_edges]
    rfl

/-- C6 witness: the definition-coverage part of the amended claim applied
at a concrete record, discharging the visited-identifier hypothesis by
evaluation. -/
theorem C6_amended_graph_output_witness :
    identify "Kingdom" "W" ∈ defIds (render_mermaid_lines "T" "TD" [rc6w]) :=
  (C6_amended_graph_output "T" "TD" [rc6w]).2.2.2.1 (identify "Kingdom" "W")
    (by decide)

/-! ## Fuel sufficiency

The fuel threaded through the serializers is an embedding device, not part
of the source.  To certify that the top-level entry points never truncate,
a weight is assigned to every nested children list: the empty list weighs
one, and an entry adds one plus the weight of its children.  The walk and
the Newick recursion are proven fuel-stable above this weight, and the
weight of every built tree is proven below the fuel the entry points use. -/

/-- The recursion weight of a nested children list, as a relation (the
nested induction makes a recursive function awkward; the relation is total
and functional, as proven below). -/
inductive WeightL : List (String × Tree) → Nat → Prop where
  | nil : WeightL [] 1
  | cons (n : String) (c : Tree) (rest : List (String × Tree)) (wc wr : Nat) :
      WeightL c.children wc → WeightL rest wr →
      WeightL ((n, c) :: rest) (1 + wc + wr)

theorem WeightL.one_le {l : List (String × Tree)} {w : Nat}
    (h : WeightL l w) : 1 ≤ w := by
  cases h with
  | nil => exact Nat.le_refl 1
  | cons n c rest wc wr hc hr => omega

theorem WeightL.cons_inv {n : String} {c : Tree} {rest : List (String × Tree)}
    {w : Nat} (h : WeightL ((n, c) :: rest) w) :
    ∃ wc wr, WeightL c.children wc ∧ WeightL rest wr ∧ w = 1 + wc + wr := by
  cases h with
  | cons n c rest wc wr hc hr => exact ⟨wc, wr, hc, hr, rfl⟩

theorem weightL_exists_aux (n : Nat) :
    ∀ l : List (String × Tree), sizeOf l ≤ n → ∃ w, WeightL l w := by
  induction n with
  | zero =>
    intro l hl
    exfalso
    cases l <;> simp at hl
  | succ n ih =>
    intro l hl
    cases l with
    | nil => exact ⟨1, WeightL.nil⟩
    | cons hd rest =>
      obtain ⟨name, child⟩ := hd
      obtain ⟨cs⟩ := child
      have hsz : sizeOf ((name, Tree.node cs) :: rest) =
          1 + (1 + sizeOf name + (1 + sizeOf cs)) + sizeOf rest := by
        simp [Tree.node.sizeOf_spec]
      have hcs : sizeOf cs ≤ n := by
        rw [hsz] at hl
        have h1 : 0 < sizeOf name := by
          cases name
          simp
        omega
      have hrest : sizeOf rest ≤ n := by
        rw [hsz] at hl
        omega
      obtain ⟨wc, hwc⟩ := ih cs hcs
      obtain ⟨wr, hwr⟩ := ih rest hrest
      exact ⟨1 + wc + wr, WeightL.cons name (Tree.node cs) rest wc wr hwc hwr⟩

theorem weightL_exists (l : List (String × Tree)) : ∃ w, WeightL l w :=
  weightL_exists_aux (sizeOf l) l (Nat.le_refl _)

theorem weightL_unique {l : List (String × Tree)} {w w2 : Nat}
    (h : WeightL l w) (h2 : WeightL l w2) : w = w2 := by
  induction h generalizing w2 with
  | nil => cases h2; rfl
  | cons n c rest wc wr hc hr ihc ihr =>
    obtain ⟨wc2, wr2, hc2, hr2, rfl⟩ := h2.cons_inv
    rw [ihc hc2, ihr hr2]

theorem weightL_insertByKey {x : String × Tree} {l : List (String × Tree)}
    {w : Nat} (h : WeightL (x :: l) w) : WeightL (insertByKey x l) w := by
  induction l generalizing w with
  | nil => exact h
  | cons y ys ih =>
    by_cases hk : keyLe x.1 y.1
    · simpa [insertByKey, hk] using h
    · simp only [insertByKey, hk, if_false, Bool.false_eq_true]
      obtain ⟨x1, x2⟩ := x
      obtain ⟨wc, wr, hc, hr, rfl⟩ := h.cons_inv
      obtain ⟨y1, y2⟩ := y
      obtain ⟨wyc, wyr, hyc, hyr, rfl⟩ := hr.cons_inv
      have hx : WeightL ((x1, x2) :: ys) (1 + wc + wyr) :=
        WeightL.cons x1 x2 ys wc wyr hc hyr
      have := WeightL.cons y1 y2 (insertByKey (x1, x2) ys) wyc (1 + wc + wyr)
        hyc (ih hx)
      have harith : 1 + wyc + (1 + wc + wyr) = 1 + wc + (1 + wyc + wyr) := by omega
      rw [harith] at this
      exact this

theorem weightL_sortSiblings {l : List (String × Tree)} {w : Nat}
    (h : WeightL l w) : WeightL (sortSiblings l) w := by
  induction l generalizing w with
  | nil => exact h
  | cons x xs ih =>
    obtain ⟨x1, x2⟩ := x
    obtain ⟨wc, wr, hc, hr, rfl⟩ := h.cons_inv
    exact weightL_insertByKey
      (WeightL.cons x1 x2 (sortSiblings xs) wc wr hc (ih hr))

theorem weightL_append {l1 l2 : List (String × Tree)} {w1 w2 : Nat}
    (h1 : WeightL l1 w1) (h2 : WeightL l2 w2) :
    ∃ w3, WeightL (l1 ++ l2) w3 ∧ w3 + 1 = w1 + w2 := by
  induction h1 with
  | nil =>
    exact ⟨w2, by simpa using h2, by omega⟩
  | cons n c rest wc wr hc hr ihc ihr =>
    obtain ⟨w3, hw3, heq⟩ := ihr
    exact ⟨1 + wc + w3, WeightL.cons n c (rest ++ l2) wc w3 hc hw3, by omega⟩

theorem weightL_updateFirst {v : String} {f : Tree → Tree} {B : Nat}
    (hf : ∀ (c : Tree) (wc : Nat), WeightL c.children wc →
      ∃ wc2, WeightL (f c).children wc2 ∧ wc2 ≤ wc + B) :
    ∀ {cs : List (String × Tree)} {w : Nat}, WeightL cs w →
      ∃ w2, WeightL (updateFirst v f cs) w2 ∧ w2 ≤ w + B := by
  intro cs
  induction cs with
  | nil =>
    intro w h
    exact ⟨w, by simpa [updateFirst] using h, by omega⟩
  | cons hd rest ih =>
    intro w h
    obtain ⟨k, c⟩ := hd
    obtain ⟨wc, wr, hc, hr, rfl⟩ := h.cons_inv
    by_cases hk : (k == v) = true
    · obtain ⟨wc2, hwc2, hle⟩ := hf c wc hc
      refine ⟨1 + wc2 + wr, ?_, by omega⟩
      simp only [updateFirst, hk, if_true]
      exact WeightL.cons k (f c) rest wc2 wr hwc2 hr
    · have hk2 : (k == v) = false := Bool.eq_false_iff.mpr hk
      obtain ⟨w2, hw2, hle⟩ := ih hr
      refine ⟨1 + wc + w2, ?_, by omega⟩
      simp only [updateFirst, hk2, if_false, Bool.false_eq_true]
      exact WeightL.cons k c (updateFirst v f rest) wc w2 hc hw2

theorem weightL_insertChain :
    ∀ (ch : List String) (t : Tree) (w : Nat), WeightL t.children w →
      ∃ w2, WeightL (insertChain t ch).children w2 ∧ w2 ≤ w + 2 * ch.length := by
  intro ch
  induction ch with
  | nil =>
    intro t w h
    exact ⟨w, h, by omega⟩
  | cons v vs ih =>
    intro t w h
    obtain ⟨cs⟩ := t
    simp only [insertChain, updateChild]
    by_cases hany : cs.any (fun p => p.1 == v)
    · simp only [hany, if_true]
      have hw : WeightL (Tree.node cs).children w := h
      obtain ⟨w2, hw2, hle⟩ := @weightL_updateFirst v (fun c => insertChain c vs)
        (2 * vs.length) (fun c wc hc => ih c wc hc) _ _ hw
      refine ⟨w2, hw2, ?_⟩
      simp only [List.length_cons]
      omega
    · simp only [hany, if_false, Bool.false_eq_true]
      obtain ⟨wn, hwn, hnle⟩ := ih (Tree.node []) 1 WeightL.nil
      have hsingle : WeightL [(v, insertChain (Tree.node []) vs)] (1 + wn + 1) :=
        WeightL.cons v _ [] wn 1 hwn WeightL.nil
      obtain ⟨w3, hw3, heq⟩ := weightL_append h hsingle
      refine ⟨w3, hw3, ?_⟩
      simp only [List.length_cons]
      omega

theorem presentChain_length_le (ranks : List String) (r : Record) :
    (presentChain ranks r).length ≤ ranks.length := by
  induction ranks with
  | nil => exact Nat.le_refl _
  | cons k ks ih =>
    simp only [presentChain]
    cases rget r (lowerStr k) with
    | none => simp
    | some v =>
      by_cases hv : v == ""
      · simp [hv]
      · simp only [hv, if_false, Bool.false_eq_true, List.length_cons]
        omega

theorem weightL_build_tree (ranks : List String) (rows : List Record) :
    ∃ w, WeightL (build_tree ranks rows).children w ∧
      w ≤ 1 + 2 * (rows.length * ranks.length) := by
  unfold build_tree
  have main : ∀ (rs : List Record) (t : Tree) (w : Nat), WeightL t.children w →
      ∃ w2, WeightL ((rs.foldl (fun t r => insertRecord ranks r t) t)).children w2 ∧
        w2 ≤ w + 2 * (rs.length * ranks.length) := by
    intro rs
    induction rs with
    | nil =>
      intro t w h
      exact ⟨w, h, by omega⟩
    | cons r rest ih =>
      intro t w h
      simp only [List.foldl_cons]
      rw [insertRecord_eq_chain]
      obtain ⟨w1, hw1, hle1⟩ := weightL_insertChain (presentChain ranks r) t w h
      obtain ⟨w2, hw2, hle2⟩ := ih (insertChain t (presentChain ranks r)) w1 hw1
      refine ⟨w2, hw2, ?_⟩
      have hch := presentChain_length_le ranks r
      have hmul : (rest.length + 1) * ranks.length =
          rest.length * ranks.length + ranks.length := Nat.succ_mul _ _
      have hchmul : 2 * (presentChain ranks r).length ≤ 2 * ranks.length :=
        Nat.mul_le_mul_left 2 hch
      simp only [List.length_cons, hmul]
      omega
  obtain ⟨w, hw, hle⟩ := main rows (Tree.node []) 1 WeightL.nil
  exact ⟨w, hw, by omega⟩

theorem walkF_fuel_stable :
    ∀ (f g : Nat) (items : List (String × Tree)) (w ri : Nat)
      (ranks : List String) (parent : Option String) (st : WalkSt),
      WeightL items w → w ≤ f → w ≤ g →
      walkF f items ri ranks parent st = walkF g items ri ranks parent st := by
  intro f
  induction f with
  | zero =>
    intro g items w ri ranks parent st hw hf hg
    have := hw.one_le
    omega
  | succ f ih =>
    intro g items w ri ranks parent st hw hf hg
    cases g with
    | zero =>
      have := hw.one_le
      omega
    | succ g =>
      cases items with
      | nil => rfl
      | cons hd rest =>
        obtain ⟨name, child⟩ := hd
        obtain ⟨wc, wr, hc, hr, rfl⟩ := hw.cons_inv
        have hwc1 := hc.one_le
        have hwr1 := hr.one_le
        simp only [walkF]
        by_cases hempty : child.children.isEmpty
        · simp only [if_pos hempty]
          exact ih g rest wr ri ranks parent _ hr (by omega) (by omega)
        · simp only [if_neg hempty]
          have hsort := weightL_sortSiblings hc
          rw [ih g (sortSiblings child.children) wc (ri + 1) ranks _ _ hsort
            (by omega) (by omega)]
          exact ih g rest wr ri ranks parent _ hr (by omega) (by omega)

theorem nested_to_newick_fuel_stable :
    ∀ (f g : Nat) (items : List (String × Tree)) (w ri : Nat)
      (ranks : List String),
      WeightL items w → w ≤ f → w ≤ g →
      nested_to_newick f items ri ranks = nested_to_newick g items ri ranks := by
  intro f
  induction f with
  | zero =>
    intro g items w ri ranks hw hf hg
    have := hw.one_le
    omega
  | succ f ih =>
    intro g items w ri ranks hw hf hg
    cases g with
    | zero =>
      have := hw.one_le
      omega
    | succ g =>
      cases items with
      | nil => rfl
      | cons hd rest =>
        obtain ⟨name, child⟩ := hd
        obtain ⟨wc, wr, hc, hr, rfl⟩ := hw.cons_inv
        have hwc1 := hc.one_le
        have hwr1 := hr.one_le
        simp only [nested_to_newick]
        by_cases hempty : child.children.isEmpty
        · simp only [if_pos hempty]
          rw [ih g rest wr ri ranks hr (by omega) (by omega)]
        · simp only [if_neg hempty]
          have hsort := weightL_sortSiblings hc
          rw [ih g (sortSiblings child.children) wc (ri + 1) ranks hsort
            (by omega) (by omega)]
          rw [ih g rest wr ri ranks hr (by omega) (by omega)]

theorem rowsFuel_sufficient (rows : List Record) :
    ∃ w, WeightL (sortSiblings (build_tree RANK_KEYS rows).children) w ∧
      w ≤ rowsFuel rows := by
  obtain ⟨w, hw, hle⟩ := weightL_build_tree RANK_KEYS rows
  refine ⟨w, weightL_sortSiblings hw, ?_⟩
  have : 2 * rows.length * RANK_KEYS.length = 2 * (rows.length * RANK_KEYS.length) :=
    Nat.mul_assoc 2 _ _
  unfold rowsFuel
  omega

/-- Passing any fuel at least rowsFuel to the walk gives the same output as
render_mermaid_lines: the fuel of the top-level entry point never
truncates the traversal of a built tree. -/
theorem render_mermaid_fuel_any (ts dir : String) (rows : List Record)
    (g : Nat) (hg : rowsFuel rows ≤ g) :
    (walkF g (sortSiblings (build_tree RANK_KEYS rows).children) 0 RANK_KEYS none
      { lines := [.raw ("%% Generated " ++ ts ++ "Z"), .raw ("graph " ++ dir)],
        created := [] }).lines = render_mermaid_lines ts dir rows := by
  obtain ⟨w, hw, hle⟩ := rowsFuel_sufficient rows
  unfold render_mermaid_lines
  rw [walkF_fuel_stable g (rowsFuel rows) _ w 0 RANK_KEYS none _ hw
    (by omega) (by omega)]

/-- Passing any fuel at least rowsFuel to build_newick gives the same text
as render_newick. -/
theorem render_newick_fuel_any (rows : List Record) (g : Nat)
    (hg : rowsFuel rows ≤ g) :
    build_newick g (build_tree RANK_KEYS rows) = render_newick rows := by
  obtain ⟨w, hw, hle⟩ := rowsFuel_sufficient rows
  unfold render_newick build_newick
  rw [nested_to_newick_fuel_stable g (rowsFuel rows) _ w 0 RANK_KEYS hw
    (by omega) (by omega)]

end PhyloTree



